import Mathlib

/-!
Verification development for the scippneutron semantic access layer
(file-loading core).  Python sources are embedded shallowly as Lean
definitions; machine integers are modelled as `Int`/`Nat`, fallible code
returns `Except`, and numpy/scipp array operations are modelled on lists.
-/

set_option autoImplicit false

/-! ## Model of `file_loading/_common.py`: scipp-style index handling -/

/-- A per-dimension selector: a plain integer or a (possibly unbounded)
slice.  `Sel.slc none none` models Python `slice(None)`, the full slice. -/
inductive Sel where
  | int (i : Int)
  | slc (start stop : Option Int)
deriving DecidableEq, Repr

/-- A scipp-style index (`ScippIndex` in `_common.py`): Ellipsis, the empty
tuple, a `(dim, selector)` tuple, a plain tuple of selectors, a bare
integer/slice, or a dict from dimension label to selector. -/
inductive SIndex where
  | ellipsis
  | etuple
  | named (key : String) (s : Sel)
  | tup (sels : List Sel)
  | single (s : Sel)
  | dict (entries : List (String × Sel))
deriving DecidableEq, Repr

/-- A plain numpy-style index: `to_plain_index` returns `index[0]` when the
dataset has exactly one dimension and a tuple otherwise. -/
inductive PlainIndex where
  | one (s : Sel)
  | many (l : List Sel)
deriving DecidableEq, Repr

/-- Model of `_common._to_canonical_select`: return the selection as a dict
(association list) with explicit dim labels; raises `ValueError` for
multi-dimensional data indexed without naming the dimension. -/
def _to_canonical_select (dims : List String) (select : SIndex) :
    Except String (List (String × Sel)) :=
  match select with
  | .ellipsis => .ok []
  | .etuple => .ok []
  | .named key s => .ok [(key, s)]
  | .tup sels =>
    if dims.length ≠ 1 then
      .error "Dataset has multiple dimensions, specify the dimension to index."
    else if sels.length ≠ 1 then
      .error "Dataset has single dimension, but multiple indices were specified."
    else
      match sels with
      | [s] => .ok [(dims.headD "", s)]
      | _ => .error "unreachable"
  | .single s =>
    if dims.length ≠ 1 then
      .error "Dataset has multiple dimensions, specify the dimension to index."
    else .ok [(dims.headD "", s)]
  | .dict entries => .ok entries

/-- The assignment loop of `to_plain_index`: place each canonical selector
entry at its dimension position in the index list; a key not found in
`dims` raises `ValueError`. -/
def _assign_index (dims : List String) :
    List (String × Sel) → List Sel → Except String (List Sel)
  | [], acc => .ok acc
  | p :: rest, acc =>
    if p.1 ∈ dims then
      _assign_index dims rest (acc.set (dims.indexOf p.1) p.2)
    else
      .error "key used for indexing not found in dataset dims"

/-- Model of `_common.to_plain_index`: start from a full slice per dimension
and place each named selector at its dimension position; the single entry is
returned unwrapped for one-dimensional data. -/
def to_plain_index (dims : List String) (select : SIndex) :
    Except String PlainIndex :=
  match _to_canonical_select dims select with
  | .error e => .error e
  | .ok sel =>
    match _assign_index dims sel (dims.map (fun _ => Sel.slc none none)) with
    | .error e => .error e
    | .ok [s] => .ok (.one s)
    | .ok l => .ok (.many l)

/-- Model of `_common.to_child_select`: restrict a parent-level selection to
a child field with (possibly) fewer dimensions, dropping selections that
apply to the parent but not the child. -/
def to_child_select (dims child_dims : List String) (select : SIndex) :
    Except String SIndex :=
  if dims.all (fun d => child_dims.contains d) &&
      child_dims.all (fun d => dims.contains d) then
    .ok select
  else
    match _to_canonical_select dims select with
    | .error e => .error e
    | .ok sel =>
      .ok (.dict (sel.filter
        (fun p => ! (dims.contains p.1 && ! child_dims.contains p.1))))

/-- The all-full-slices plain index produced for a given dimension list. -/
def fullSlices (dims : List String) : PlainIndex :=
  match dims.map (fun _ => Sel.slc none none) with
  | [s] => .one s
  | l => .many l

/-! ## Model of `file_loading/nxdetector.py`: event-to-pixel binning

`NXevent_data.__getitem__` (class not under `src/`) yields the pulse-binned
event stream; `NXevent_data_by_pixel.__getitem__` broadcasts the per-pulse
`event_time_zero` to each event and flattens, so the stream entering the
final `sc.bin` call is a flat event table.  We model that flat table
directly: one record per event. -/

/-- One event record of the flattened event table: its pixel identifier
`event_id`, its time-of-flight `event_time_offset`, and the broadcast
absolute pulse time `event_time_zero`. -/
structure Event where
  event_id : Int
  event_time_offset : Int
  event_time_zero : Int
deriving DecidableEq, Repr

/-- The selections `NXevent_data_by_pixel.__getitem__` distinguishes:
`Ellipsis`, the empty tuple and `slice(None)` load everything; a bounded
slice restricts the (flattened) pixel list. -/
inductive PixelSelect where
  | ellipsis
  | etuple
  | fullSlice
  | slice (start stop : Nat)
deriving DecidableEq, Repr

/-- Apply a `PixelSelect` to the flattened `detector_number` list
(`self._detector_number[select]`). -/
def applyPixelSelect (select : PixelSelect) (pixels : List Int) : List Int :=
  match select with
  | .ellipsis => pixels
  | .etuple => pixels
  | .fullSlice => pixels
  | .slice a b => (pixels.drop a).take (b - a)

/-- Model of `sc.bin(event_data, groups=[event_id])` followed by the rename
to `detector_number` and the `fold`: one bucket per declared pixel, in
declared order, holding exactly the events whose `event_id` equals that
pixel.  Events whose id matches no declared group are dropped (scipp group
semantics); events keep their relative order inside a bucket. -/
def binByPixel (events : List Event) (pixels : List Int) :
    List (Int × List Event) :=
  pixels.map (fun p => (p, events.filter (fun e => e.event_id == p)))

/-- Model of `array.min()` over an event-id column. -/
def minList (l : List Int) : Option Int :=
  match l with
  | [] => none
  | x :: xs => some (xs.foldl min x)

/-- Model of `array.max()` over an event-id column. -/
def maxList (l : List Int) : Option Int :=
  match l with
  | [] => none
  | x :: xs => some (xs.foldl max x)

/-- Model of `sc.arange(start=id_min, stop=id_max + 1)`. -/
def arangeInt (lo hi : Int) : List Int :=
  (List.range (hi + 1 - lo).toNat).map (fun (i : Nat) => lo + (i : Int))

/-- Model of the `NXevent_data_by_pixel` view: the selected event stream
(with pulse times already broadcast per event), the optional flattened
`detector_number` field, and the unit carried by the underlying
`NXevent_data` (whose class is not under `src/`; only its unit enters
here). -/
structure NXevent_data_by_pixel where
  events : List Event
  detector_number : Option (List Int)
  nxevent_data_unit : Option String

/-- Model of `NXevent_data_by_pixel.unit`: the Python property body is the
bare expression `self._nxevent_data.unit` without a `return` statement, so
the property evaluates the expression and returns `None`. -/
def NXevent_data_by_pixel.unit (d : NXevent_data_by_pixel) : Option String :=
  let _ := d.nxevent_data_unit
  none

/-- Model of `NXevent_data_by_pixel.__getitem__`.  With an explicit
`detector_number` the (possibly sliced) pixel list is used as the binning
groups; without it, any selection other than Ellipsis, the empty tuple or
`slice(None)` raises `NexusStructureError`, and otherwise the pixel list is
`arange(event_id.min(), event_id.max() + 1)`.  (scipp's `min`/`max` over an
empty event table is not modelled; the claims only concern nonempty
streams.) -/
def NXevent_data_by_pixel.getitem (d : NXevent_data_by_pixel)
    (select : PixelSelect) : Except String (List (Int × List Event)) :=
  match d.detector_number with
  | some dn => .ok (binByPixel d.events (applyPixelSelect select dn))
  | none =>
    match select with
    | .slice _ _ =>
      .error "Cannot load slice of NXdetector since it contains event data but no detector_number field, i.e., the shape is unknown."
    | _ =>
      match minList (d.events.map Event.event_id),
          maxList (d.events.map Event.event_id) with
      | some lo, some hi => .ok (binByPixel d.events (arangeInt lo hi))
      | _, _ => .error "empty event stream"

/-- Total number of events across all returned pixel buckets. -/
def bucketTotal (buckets : List (Int × List Event)) : Nat :=
  (buckets.map (fun b => b.2.length)).sum

/-! ## Model of `file_loading/nxdata.py`: dimension and coordinate resolution -/

/-- The placeholder dimension label `dim_<i>` synthesized by `NXdata`. -/
def dimLabel (i : Nat) : String :=
  "dim_" ++ toString i

/-- The attribute state an `NXdata` group needs for `dims` resolution: the
group-level `axes` attribute, the `axes` default passed to the constructor,
the legacy `axes` attribute on the signal dataset (a comma-separated
string), and the signal shape. -/
structure NXdata where
  group_axes : Option (List String)
  axes_default : Option (List String)
  signal_axes : Option String
  signal_shape : List Nat
deriving DecidableEq, Repr

/-- Model of `self.attrs.get(a, default)` for the `axes` attribute. -/
def NXdata.axesAttr (g : NXdata) : Option (List String) :=
  match g.group_axes with
  | some a => some a
  | none => g.axes_default

/-- Model of `NXdata.dims`: group-level `axes` (or the provided default)
with `.` entries replaced by `dim_<i>`; else the legacy signal-dataset
`axes` attribute split on commas; else `dim_<i>` per axis of the signal
shape. -/
def NXdata.dims (g : NXdata) : List String :=
  match g.axesAttr with
  | some axes => axes.enum.map (fun p => if p.2 = "." then dimLabel p.1 else p.2)
  | none =>
    match g.signal_axes with
    | some s => s.splitOn ","
    | none => (List.range g.signal_shape.length).map dimLabel

/-- Model of `NXdata._guess_dims`: `sizes` lists the signal DataArray's
(dim, extent) pairs in order; a lookup table keyed by extent is built from
those extents occurring exactly once in the signal shape, and each extent of
the coordinate's shape is resolved through it; a missing key raises
`NexusStructureError`. -/
def _guess_dims (sizes : List (String × Nat)) (shape : List Nat) :
    Except String (List String) :=
  let sshape := sizes.map Prod.snd
  let lut := sizes.filterMap
    (fun ds => if sshape.count ds.2 == 1 then some (ds.2, ds.1) else none)
  match shape.mapM (fun s => lut.lookup s) with
  | some dims => .ok dims
  | none => .error "Could not determine axis indices"

/-! ## Model of `file_loading/_log_data.py`: log loading and unit handling -/

/-- The parts of an `NXlog` group that decide `_load_log_data_from_group`.
The function inspects the `value` and `time` datasets only through their
numpy shapes (`values.size`, `np.ndim(values)`, `times.shape` against
`values.shape`), so each dataset is carried as its shape: `none` models a
missing dataset, `some shape` a dataset of that shape (a scalar has shape
`[]`).  `time_unit_convertible` records whether `sc.to_unit(raw_times, s)`
succeeds inside `_correct_nxlog_times`.  (Date-string parsing by
`dateutil`, which the source does not catch, is outside this model.) -/
structure NXlogGroup where
  value_shape : Option (List Nat)
  containsStream : Bool
  value_unit : String
  time_shape : Option (List Nat)
  time_unit_convertible : Bool
deriving DecidableEq, Repr

/-- Outcome of loading one log: `skip` models `SkipSource`, `bad` models
`BadSource` (skip with warning), `ok` carries the resolved unit string, a
flag recording whether the unrecognized-unit warning fired, and whether the
result is a time series. -/
inductive LogLoad where
  | skip
  | bad (msg : String)
  | ok (unit : String) (unitWarned : Bool) (isTimeSeries : Bool)
deriving DecidableEq, Repr

/-- Model of `_load_log_data_from_group`.  `known_unit` models `sc.Unit`
construction succeeding on a unit string.  In source order: a missing value
dataset is `SkipSource` (stream present) or `BadSource`; an empty value
dataset is `BadSource`; an unrecognized value unit emits a warning and is
replaced by `dimensionless`; the `try` block over the `time` dataset makes
the log a time series and raises `BadSource` for a time unit not
convertible to seconds or mismatched time/value shapes; finally a value
dataset with more than one dimension is `BadSource`. -/
def _load_log_data_from_group (known_unit : String → Bool)
    (g : NXlogGroup) : LogLoad :=
  match g.value_shape with
  | none =>
    if g.containsStream then .skip
    else .bad "NXlog has no value dataset"
  | some vshape =>
    if vshape.prod == 0 then .bad "NXlog has an empty value dataset"
    else
      let unit := if known_unit g.value_unit then (g.value_unit, false)
        else ("dimensionless", true)
      match (match g.time_shape with
        | some tshape =>
          if !g.time_unit_convertible then
            Except.error
              "The units of time in an NXlog entry must be convertible to seconds"
          else if tshape != vshape then
            Except.error "NXlog has time and value datasets of different shapes"
          else Except.ok true
        | none => Except.ok false : Except String Bool) with
      | .error m => .bad m
      | .ok is_time_series =>
        if vshape.length > 1 then
          .bad "NXlog has value dataset with more than 1 dimension"
        else .ok unit.1 unit.2 is_time_series

/-! ## Model of `file_loading/nxtransformations.py`: chain composition

A transformation is either a static affine or a time-logged series of
affines.  Affine matrices are modelled as elements of an arbitrary
multiplicative type `M`; timestamps are `Int` (nanoseconds). -/

/-- One resolved link of a depends_on chain: a static affine (`sc.Variable`
in the source) or a time-logged series (`sc.DataArray` with a `time`
coordinate, samples listed in time order). -/
inductive NXtransform (M : Type) where
  | static (m : M)
  | logged (samples : List (Int × M))
deriving DecidableEq, Repr

/-- Hold-last-value scan for `kind="previous"` interpolation: walk the
sample list while sample times stay at or before `t` and return the value
of the last such sample.  If even the first sample is after `t` the first
value stands in (scipy's below-range extrapolation; such points are clipped
away by the caller). -/
def holdPrev {M : Type} (cur : Int × M) (rest : List (Int × M)) (t : Int) : M :=
  match rest with
  | [] => cur.2
  | s :: rest2 => if s.1 ≤ t then holdPrev s rest2 t else cur.2

/-- Model of `_interpolate_transform`: resample a time-logged transform onto
the new time coordinate `xnew` with hold-last-value interpolation.  (The
source duplicates a single sample before calling scipy; duplication does
not change hold-last-value semantics.) -/
def _interpolate_transform {M : Type} (samples : List (Int × M))
    (xnew : List Int) : List (Int × M) :=
  match samples with
  | [] => []
  | s :: rest => xnew.map (fun x => (x, holdPrev s rest x))

/-- Insert a timestamp into a sorted duplicate-free timestamp list. -/
def insertSortedDedup (t : Int) (l : List Int) : List Int :=
  match l with
  | [] => [t]
  | x :: xs =>
    if t < x then t :: x :: xs
    else if t = x then x :: xs
    else x :: insertSortedDedup t xs

/-- Model of `np.unique(np.concatenate([l1, l2]))`: the sorted
duplicate-free union of two timestamp lists. -/
def npUniqueConcat (l1 l2 : List Int) : List Int :=
  (l1 ++ l2).foldr insertSortedDedup []

/-- Elementwise product of two time series sharing one time coordinate
(scipp DataArray multiplication after both were resampled onto `xnew`). -/
def mulSeries {M : Type} [Mul M] (l1 l2 : List (Int × M)) :
    List (Int × M) :=
  List.zipWith (fun p q => (p.1, p.2 * q.2)) l1 l2

/-- Broadcasting product `t * total` of two transforms when at most one is
time-logged (scipp Variable/DataArray multiplication). -/
def mulTransform {M : Type} [Mul M] (t total : NXtransform M) :
    NXtransform M :=
  match t, total with
  | .static m, .static n => .static (m * n)
  | .static m, .logged ns => .logged (ns.map (fun p => (p.1, m * p.2)))
  | .logged ms, .static n => .logged (ms.map (fun p => (p.1, p.2 * n)))
  | .logged ms, .logged ns => .logged (mulSeries ms ns)

/-- Model of `get_full_transformation_matrix` given the already-walked
chain `transformations` (in dependency order): fold the composition
starting from the identity affine, resampling onto the union time
coordinate whenever both operands are time-logged, and finally clip a
time-dependent result to start at the latest first timestamp of the
time-dependent inputs (`total_transform['time', latest_log_start:]`). -/
def get_full_transformation_matrix {M : Type} [Mul M] (ident : M)
    (transformations : List (NXtransform M)) : NXtransform M :=
  let total := transformations.foldl
    (fun (total tr : NXtransform M) =>
      match total, tr with
      | .logged ts, .logged tr2 =>
        let xnew := npUniqueConcat (ts.map Prod.fst) (tr2.map Prod.fst)
        NXtransform.logged (mulSeries (_interpolate_transform tr2 xnew)
          (_interpolate_transform ts xnew))
      | _, _ => mulTransform tr total)
    (NXtransform.static ident)
  match total with
  | .logged ts =>
    let firsts := transformations.filterMap
      (fun tr => match tr with
        | .logged (p :: _) => some p.1
        | _ => none)
    match maxList firsts with
    | some latest => .logged (ts.filter (fun p => decide (latest ≤ p.1)))
    | none => .logged ts
  | s => s

/-- Specification-style nearest-preceding sample: the last sample whose
timestamp is at or before `t`. -/
def lastNotAfter {M : Type} (samples : List (Int × M)) (t : Int) :
    Option (Int × M) :=
  (samples.filter (fun s => decide (s.1 ≤ t))).getLast?

/-- Timestamps of a time series are in ascending order. -/
def timeSorted {M : Type} (samples : List (Int × M)) : Prop :=
  List.Pairwise (fun p q => p.1 ≤ q.1) samples

/-! ## Helper lemmas -/

theorem set_map_const {α β : Type} (l : List α) (c : β) (i : Nat) :
    (l.map (fun _ => c)).set i c = l.map (fun _ => c) := by
  induction l generalizing i with
  | nil => rfl
  | cons a t ih => cases i <;> simp [List.set, ih]

theorem _assign_index_full (dims : List String) :
    ∀ (entries : List (String × Sel)) (acc : List Sel),
    (∀ p ∈ entries, p.1 ∈ dims ∧ p.2 = Sel.slc none none) →
    (∀ i, acc.set i (Sel.slc none none) = acc) →
    _assign_index dims entries acc = .ok acc := by
  intro entries
  induction entries with
  | nil => intro acc _ _; rfl
  | cons p rest ih =>
    intro acc hk hacc
    obtain ⟨hp1, hp2⟩ := hk p (List.mem_cons_self _ _)
    simp only [_assign_index, if_pos hp1, hp2, hacc]
    exact ih acc (fun q hq => hk q (List.mem_cons_of_mem _ hq)) hacc

theorem _assign_index_missing (dims : List String) :
    ∀ (entries : List (String × Sel)) (acc : List Sel),
    (∃ p ∈ entries, p.1 ∉ dims) →
    ∃ m, _assign_index dims entries acc = .error m := by
  intro entries
  induction entries with
  | nil =>
    intro acc h
    rcases h with ⟨p, hp, _⟩
    cases hp
  | cons q rest ih =>
    intro acc h
    by_cases hq : q.1 ∈ dims
    · simp only [_assign_index, if_pos hq]
      apply ih
      rcases h with ⟨p, hp, hpd⟩
      rcases List.mem_cons.mp hp with rfl | hp2
      · exact absurd hq hpd
      · exact ⟨p, hp2, hpd⟩
    · exact ⟨"key used for indexing not found in dataset dims",
        by simp [_assign_index, if_neg hq]⟩

theorem to_plain_index_full (dims : List String) (sel : SIndex)
    (entries : List (String × Sel))
    (hc : _to_canonical_select dims sel = .ok entries)
    (ha : _assign_index dims entries (dims.map (fun _ => Sel.slc none none)) =
      .ok (dims.map (fun _ => Sel.slc none none))) :
    to_plain_index dims sel = .ok (fullSlices dims) := by
  simp only [to_plain_index, fullSlices, hc, ha]
  cases h : dims.map (fun _ => Sel.slc none none) with
  | nil => rfl
  | cons s t => cases t <;> rfl

/-! ## Claim theorems -/

/-- C10: the `unit` property of the event-based signal of an `NXdetector`
(`NXevent_data_by_pixel.unit`) always returns `None`, regardless of the
unit carried by the underlying `NXevent_data`. -/
theorem C10_event_signal_unit_is_none (d : NXevent_data_by_pixel) :
    d.unit = none := rfl

/-- C9: reading with a full-range selector (every dimension mapped to the
full slice) canonicalizes to the same plain index of all-full slices as the
Ellipsis and empty-tuple no-selector sentinels, so the read value is
identical. -/
theorem C9_full_range_equals_ellipsis (dims : List String) :
    to_plain_index dims SIndex.ellipsis = .ok (fullSlices dims) ∧
    to_plain_index dims SIndex.etuple = .ok (fullSlices dims) ∧
    to_plain_index dims
      (SIndex.dict (dims.map (fun d => (d, Sel.slc none none)))) =
      .ok (fullSlices dims) := by
  refine ⟨?_, ?_, ?_⟩
  · exact to_plain_index_full dims _ [] rfl rfl
  · exact to_plain_index_full dims _ [] rfl rfl
  · refine to_plain_index_full dims _ _ rfl ?_
    refine _assign_index_full dims _ _ ?_ (fun i => set_map_const dims _ i)
    intro p hp
    rcases List.mem_map.mp hp with ⟨d, hd, rfl⟩
    exact ⟨hd, rfl⟩

/-- C7: a selector entry naming a dimension that is in the group dims but
not in a child field's dims is silently removed by the dimension
intersection of `to_child_select`, while an entry naming a dimension absent
from the group's own dims makes `to_plain_index` raise. -/
theorem C7_child_select_drop_and_group_error
    (dims child_dims : List String) (entries : List (String × Sel))
    (k : String) :
    (k ∈ dims → k ∉ child_dims →
      ∃ es, to_child_select dims child_dims (SIndex.dict entries) =
          .ok (.dict es) ∧
        (∀ p ∈ es, p.1 ≠ k) ∧
        (∀ p ∈ entries, p.1 ∈ child_dims → p ∈ es)) ∧
    ((∃ s, (k, s) ∈ entries) → k ∉ dims →
      ∃ m, to_plain_index dims (SIndex.dict entries) = .error m) := by
  constructor
  · intro hk hnk
    have hcond : (dims.all (fun d => child_dims.contains d) &&
        child_dims.all (fun d => dims.contains d)) = false := by
      have h1 : dims.all (fun d => child_dims.contains d) = false := by
        rw [List.all_eq_false]
        exact ⟨k, hk, by simp [List.contains, hnk]⟩
      rw [h1]
      rfl
    refine ⟨entries.filter
      (fun p => ! (dims.contains p.1 && ! child_dims.contains p.1)), ?_, ?_, ?_⟩
    · simp only [to_child_select, hcond, Bool.false_eq_true, if_false,
        _to_canonical_select]
    · intro p hp
      have hfp := (List.mem_filter.mp hp).2
      intro hpk
      rw [hpk] at hfp
      simp [List.contains, hk, hnk] at hfp
    · intro p hp hpc
      refine List.mem_filter.mpr ⟨hp, ?_⟩
      simp [List.contains, hpc]
  · rintro ⟨s, hs⟩ hk
    obtain ⟨m, hm⟩ := _assign_index_missing dims entries
      (dims.map (fun _ => Sel.slc none none)) ⟨(k, s), hs, hk⟩
    exact ⟨m, by simp only [to_plain_index, _to_canonical_select, hm]⟩

/-- Witness for C7 at a concrete input: the parent-only dimension `y` is
dropped for the child, and the unknown dimension `z` is an error. -/
theorem C7_child_select_drop_and_group_error_witness :
    (∃ es, to_child_select ["x", "y"] ["x"]
        (SIndex.dict [("x", Sel.int 0), ("y", Sel.int 1)]) = .ok (.dict es) ∧
      (∀ p ∈ es, p.1 ≠ "y") ∧
      (∀ p ∈ [("x", Sel.int 0), ("y", Sel.int 1)],
        p.1 ∈ ["x"] → p ∈ es)) ∧
    (∃ m, to_plain_index ["x"] (SIndex.dict [("z", Sel.int 0)]) = .error m) := by
  constructor
  · exact (C7_child_select_drop_and_group_error ["x", "y"] ["x"]
      [("x", Sel.int 0), ("y", Sel.int 1)] "y").1 (by simp) (by simp)
  · exact (C7_child_select_drop_and_group_error ["x"] []
      [("z", Sel.int 0)] "z").2 ⟨Sel.int 0, by simp⟩ (by simp)

/-- C5: `NXdata.dims` resolves dimension labels in this order: a group
level `axes` attribute (or the provided default) with `.` entries replaced
by `dim_<i>`; else the signal dataset's `axes` attribute split on commas;
else `dim_<i>` for every axis of the signal shape. -/
theorem C5_nxdata_dims_resolution (g : NXdata) :
    (∀ axes, (g.group_axes = some axes ∨
        (g.group_axes = none ∧ g.axes_default = some axes)) →
      (g.dims.length = axes.length ∧
        ∀ i x, axes[i]? = some x →
          g.dims[i]? = some (if x = "." then dimLabel i else x))) ∧
    (g.group_axes = none → g.axes_default = none →
      ∀ s, g.signal_axes = some s → g.dims = s.splitOn ",") ∧
    (g.group_axes = none → g.axes_default = none → g.signal_axes = none →
      (g.dims.length = g.signal_shape.length ∧
        ∀ i, i < g.signal_shape.length → g.dims[i]? = some (dimLabel i))) := by
  refine ⟨?_, ?_, ?_⟩
  · intro axes haxes
    have hattr : g.axesAttr = some axes := by
      rcases haxes with h | ⟨ha, hb⟩
      · simp [NXdata.axesAttr, h]
      · simp [NXdata.axesAttr, ha, hb]
    constructor
    · simp [NXdata.dims, hattr]
    · intro i x hx
      simp [NXdata.dims, hattr, List.getElem?_enum, hx]
  · intro h1 h2 s hs
    simp [NXdata.dims, NXdata.axesAttr, h1, h2, hs]
  · intro h1 h2 h3
    constructor
    · simp [NXdata.dims, NXdata.axesAttr, h1, h2, h3]
    · intro i hi
      simp [NXdata.dims, NXdata.axesAttr, h1, h2, h3, List.getElem?_range hi]

/-- Witness for C5 at concrete groups: a `.` entry becomes `dim_1`, the
legacy comma list is split, and the fallback synthesizes labels. -/
theorem C5_nxdata_dims_resolution_witness :
    (NXdata.dims ⟨some ["x", "."], none, none, []⟩).length = 2 ∧
    (NXdata.dims ⟨some ["x", "."], none, none, []⟩)[1]? = some "dim_1" ∧
    NXdata.dims ⟨none, none, some "a,b", [4, 5]⟩ = "a,b".splitOn "," ∧
    (NXdata.dims ⟨none, none, none, [4, 5]⟩)[0]? = some "dim_0" := by
  have h1 := (C5_nxdata_dims_resolution ⟨some ["x", "."], none, none, []⟩).1
    ["x", "."] (Or.inl rfl)
  have h2 := (C5_nxdata_dims_resolution ⟨none, none, some "a,b", [4, 5]⟩).2.1
    rfl rfl "a,b" rfl
  have h3 := (C5_nxdata_dims_resolution ⟨none, none, none, [4, 5]⟩).2.2
    rfl rfl rfl
  refine ⟨h1.1, ?_, ?_, ?_⟩
  · have := h1.2 1 "." (by decide)
    simpa using this
  · exact h2
  · exact h3.2 0 (by decide)

theorem lut_lookup_mem (q : String × Nat → Bool) (l : List (String × Nat))
    (s : Nat) (d : String) :
    (l.filterMap (fun ds => if q ds then some (ds.2, ds.1) else none)).lookup s
      = some d → (d, s) ∈ l ∧ q (d, s) = true := by
  induction l with
  | nil => intro h; simp at h
  | cons hd tl ih =>
    obtain ⟨d0, s0⟩ := hd
    intro h
    by_cases hq : q (d0, s0) = true
    · simp only [List.filterMap_cons, if_pos hq] at h
      rw [List.lookup_cons] at h
      split at h
      · next heq =>
        have hs : s = s0 := by simpa using heq
        injection h with hd0
        subst hs
        subst hd0
        exact ⟨List.mem_cons_self _ _, hq⟩
      · next heq =>
        have := ih h
        exact ⟨List.mem_cons_of_mem _ this.1, this.2⟩
    · simp only [List.filterMap_cons, if_neg hq] at h
      have := ih h
      exact ⟨List.mem_cons_of_mem _ this.1, this.2⟩

theorem lut_lookup_none (q : String × Nat → Bool) (l : List (String × Nat))
    (s : Nat) (hq : ∀ ds ∈ l, ds.2 = s → q ds = false) :
    (l.filterMap (fun ds => if q ds then some (ds.2, ds.1) else none)).lookup s
      = none := by
  induction l with
  | nil => simp
  | cons hd tl ih =>
    obtain ⟨d0, s0⟩ := hd
    have htl := ih (fun ds hds => hq ds (List.mem_cons_of_mem _ hds))
    by_cases hqh : q (d0, s0) = true
    · have hs0 : s0 ≠ s := by
        intro h
        have := hq (d0, s0) (List.mem_cons_self _ _) h
        simp [hqh] at this
      have hne : s ≠ s0 := fun h => hs0 h.symm
      simp only [List.filterMap_cons, if_pos hqh, List.lookup_cons]
      rw [show (s == s0) = false from beq_eq_false_iff_ne.mpr hne]
      exact htl
    · simp only [List.filterMap_cons, if_neg hqh]
      exact htl

theorem lut_lookup_found (q : String × Nat → Bool) (l : List (String × Nat))
    (s : Nat) (h : ∃ ds ∈ l, ds.2 = s ∧ q ds = true) :
    ∃ d, (l.filterMap
      (fun ds => if q ds then some (ds.2, ds.1) else none)).lookup s
      = some d := by
  induction l with
  | nil =>
    rcases h with ⟨ds, h1, _⟩
    cases h1
  | cons hd tl ih =>
    obtain ⟨d0, s0⟩ := hd
    by_cases hqh : q (d0, s0) = true
    · by_cases hs : s = s0
      · refine ⟨d0, ?_⟩
        simp only [List.filterMap_cons, if_pos hqh, List.lookup_cons]
        rw [show (s == s0) = true from by simp [hs]]
      · rcases h with ⟨ds, hmem, hds2, hdsq⟩
        rcases List.mem_cons.mp hmem with rfl | hmem2
        · exact absurd hds2.symm hs
        · obtain ⟨d, hd⟩ := ih ⟨ds, hmem2, hds2, hdsq⟩
          refine ⟨d, ?_⟩
          simp only [List.filterMap_cons, if_pos hqh, List.lookup_cons]
          rw [show (s == s0) = false from by simp [hs]]
          exact hd
    · rcases h with ⟨ds, hmem, hds2, hdsq⟩
      rcases List.mem_cons.mp hmem with rfl | hmem2
      · exact absurd hdsq (by simpa using hqh)
      · obtain ⟨d, hd⟩ := ih ⟨ds, hmem2, hds2, hdsq⟩
        refine ⟨d, ?_⟩
        simp only [List.filterMap_cons, if_neg hqh]
        exact hd

theorem mapM_none_of_mem {α β : Type} (f : α → Option β) (l : List α) (a : α)
    (ha : a ∈ l) (hf : f a = none) : l.mapM f = none := by
  induction l with
  | nil => cases ha
  | cons x xs ih =>
    rcases List.mem_cons.mp ha with rfl | h2
    · rw [List.mapM_cons]
      simp [hf]
    · rw [List.mapM_cons, ih h2]
      cases hx : f x <;> simp [hx]

theorem mapM_some_spec {α β : Type} (f : α → Option β) (l : List α)
    (h : ∀ a ∈ l, ∃ b, f a = some b) :
    ∃ bs, l.mapM f = some bs ∧ bs.length = l.length ∧
      ∀ (i : Nat) (a : α) (b : β),
        l[i]? = some a → bs[i]? = some b → f a = some b := by
  induction l with
  | nil =>
    refine ⟨[], rfl, rfl, ?_⟩
    intro i a b h1
    simp at h1
  | cons x xs ih =>
    obtain ⟨b, hb⟩ := h x (List.mem_cons_self _ _)
    obtain ⟨bs, hbs, hlen, hrel⟩ := ih (fun a ha => h a (List.mem_cons_of_mem _ ha))
    refine ⟨b :: bs, by rw [List.mapM_cons, hb, hbs]; rfl, by simp [hlen], ?_⟩
    intro i a c h1 h2
    cases i with
    | zero =>
      simp only [List.getElem?_cons_zero, Option.some.injEq] at h1 h2
      rw [← h1, ← h2]
      exact hb
    | succ n =>
      simp only [List.getElem?_cons_succ] at h1 h2
      exact hrel n a c h1 h2

/-- C6: `NXdata._guess_dims` assigns to each extent of a coordinate's shape
the signal dimension whose size uniquely matches it, and raises the
"cannot determine axis indices" structural error whenever some extent
matches a signal size occurring more than once among the signal's extents,
or matches none. -/
theorem C6_guess_dims_unique_match (sizes : List (String × Nat))
    (shape : List Nat) :
    ((∀ s ∈ shape, (sizes.map Prod.snd).count s = 1) →
      ∃ dims, _guess_dims sizes shape = .ok dims ∧
        dims.length = shape.length ∧
        ∀ (i : Nat) (d : String) (s : Nat),
          shape[i]? = some s → dims[i]? = some d →
          ((d, s) ∈ sizes ∧ (sizes.map Prod.snd).count s = 1)) ∧
    ((∃ s ∈ shape, (sizes.map Prod.snd).count s ≠ 1) →
      ∃ m, _guess_dims sizes shape = .error m) := by
  constructor
  · intro hall
    have hlookup : ∀ s ∈ shape, ∃ d,
        ((sizes.filterMap (fun ds =>
          if (sizes.map Prod.snd).count ds.2 == 1 then some (ds.2, ds.1)
          else none)).lookup s) = some d := by
      intro s hs
      apply lut_lookup_found
      have hcount := hall s hs
      have hmem : s ∈ sizes.map Prod.snd := by
        have : 0 < (sizes.map Prod.snd).count s := by omega
        exact List.count_pos_iff.mp this
      rcases List.mem_map.mp hmem with ⟨ds, hds, hds2⟩
      exact ⟨ds, hds, hds2, by simp [hds2, hcount]⟩
    obtain ⟨dims, hmapM, hlen, hrel⟩ := mapM_some_spec
      (fun s => ((sizes.filterMap (fun ds =>
        if (sizes.map Prod.snd).count ds.2 == 1 then some (ds.2, ds.1)
        else none)).lookup s)) shape hlookup
    refine ⟨dims, ?_, hlen, ?_⟩
    · simp only [_guess_dims, hmapM]
    · intro i d s h1 h2
      have hfd := hrel i s d h1 h2
      have := lut_lookup_mem _ sizes s d hfd
      refine ⟨this.1, ?_⟩
      have := this.2
      simpa using this
  · rintro ⟨s, hs, hcount⟩
    have hnone : ((sizes.filterMap (fun ds =>
        if (sizes.map Prod.snd).count ds.2 == 1 then some (ds.2, ds.1)
        else none)).lookup s) = none := by
      apply lut_lookup_none
      intro ds _ hds2
      simp [hds2, hcount]
    refine ⟨"Could not determine axis indices", ?_⟩
    have hm := mapM_none_of_mem
      (fun sz => ((sizes.filterMap (fun ds =>
        if (sizes.map Prod.snd).count ds.2 == 1 then some (ds.2, ds.1)
        else none)).lookup sz)) shape s hs hnone
    simp only [_guess_dims, hm]

/-- Witness for C6 at concrete inputs: a coordinate of extent 3 resolves to
the unique signal dimension of size 3, and an ambiguous extent errors. -/
theorem C6_guess_dims_unique_match_witness :
    (∃ dims, _guess_dims [("x", 2), ("y", 3)] [3] = .ok dims ∧
      dims.length = 1 ∧
      ∀ (i : Nat) (d : String) (s : Nat),
        [3][i]? = some s → dims[i]? = some d →
        ((d, s) ∈ [("x", 2), ("y", 3)] ∧
          ([("x", 2), ("y", 3)].map Prod.snd).count s = 1)) ∧
    (∃ m, _guess_dims [("x", 2), ("y", 2)] [2] = .error m) := by
  constructor
  · exact (C6_guess_dims_unique_match [("x", 2), ("y", 3)] [3]).1 (by decide)
  · exact (C6_guess_dims_unique_match [("x", 2), ("y", 2)] [2]).2
      ⟨2, by decide, by decide⟩

/-- Case analysis for `_load_log_data_from_group`: the unit recognizer
never influences the control path.  A run with an arbitrary recognizer and
a run with an always-succeeding recognizer skip together, fail together
with the same message, or succeed together with the same time-series flag;
in the success case the arbitrary run carries the recognized unit or the
substituted `dimensionless` with the warning flag. -/
theorem load_log_cases (ku : String → Bool) (g : NXlogGroup) :
    (∃ m, _load_log_data_from_group ku g = .bad m ∧
      _load_log_data_from_group (fun _ => true) g = .bad m) ∨
    (_load_log_data_from_group ku g = .skip ∧
      _load_log_data_from_group (fun _ => true) g = .skip) ∨
    (∃ ts, _load_log_data_from_group ku g =
        .ok (if ku g.value_unit then g.value_unit else "dimensionless")
          (!ku g.value_unit) ts ∧
      _load_log_data_from_group (fun _ => true) g =
        .ok g.value_unit false ts) := by
  obtain ⟨vs, cs, vu, tsh, tc⟩ := g
  cases vs with
  | none =>
    cases cs
    · exact Or.inl ⟨"NXlog has no value dataset", rfl, rfl⟩
    · exact Or.inr (Or.inl ⟨rfl, rfl⟩)
  | some vshape =>
    by_cases hprod : (vshape.prod == 0) = true
    · refine Or.inl ⟨"NXlog has an empty value dataset", ?_, ?_⟩ <;>
        simp [_load_log_data_from_group, hprod]
    · cases tsh with
      | none =>
        by_cases hnd : vshape.length > 1
        · refine Or.inl
            ⟨"NXlog has value dataset with more than 1 dimension", ?_, ?_⟩ <;>
            simp [_load_log_data_from_group, hprod, hnd]
        · refine Or.inr (Or.inr ⟨false, ?_, ?_⟩)
          · by_cases hku : ku vu = true <;>
              simp [_load_log_data_from_group, hprod, hnd, hku]
          · simp [_load_log_data_from_group, hprod, hnd]
      | some tshape =>
        cases tc with
        | false =>
          refine Or.inl
            ⟨"The units of time in an NXlog entry must be convertible to seconds",
              ?_, ?_⟩ <;>
            simp [_load_log_data_from_group, hprod]
        | true =>
          by_cases hsh : (tshape != vshape) = true
          · refine Or.inl
              ⟨"NXlog has time and value datasets of different shapes", ?_, ?_⟩ <;>
              simp [_load_log_data_from_group, hprod, hsh]
          · by_cases hnd : vshape.length > 1
            · refine Or.inl
                ⟨"NXlog has value dataset with more than 1 dimension", ?_, ?_⟩ <;>
                simp [_load_log_data_from_group, hprod, hsh, hnd]
            · refine Or.inr (Or.inr ⟨true, ?_, ?_⟩)
              · by_cases hku : ku vu = true <;>
                  simp [_load_log_data_from_group, hprod, hsh, hnd, hku]
              · simp [_load_log_data_from_group, hprod, hsh, hnd]

/-- C8, counterexample: with an unrecognized value unit ("cubits", not a
known unit) the log load does not fail; it returns data with the default
unit `dimensionless` substituted and only a warning recorded.  This
refutes the claim that an unrecognized physical unit is fatal for the load
of the log value dataset. -/
theorem C8_counterexample_unit_substituted :
    _load_log_data_from_group (fun s => s == "m" || s == "s")
      ⟨some [1], false, "cubits", none, true⟩ =
      .ok "dimensionless" true false := by rfl

/-- C8, amended: an unrecognized unit on the value dataset of a log is not
fatal: whenever the load would succeed with a recognized unit it still
succeeds, with the default unit `dimensionless` substituted and a warning
recorded, and every returned-with-unrecognized-unit result carries
`dimensionless` plus the warning; a time unit that is not convertible to
seconds remains fatal for that log (`BadSource`). -/
theorem C8_amended_unit_handling (known_unit : String → Bool)
    (g : NXlogGroup) :
    (∀ u w ts, _load_log_data_from_group (fun _ => true) g = .ok u w ts →
      _load_log_data_from_group known_unit g =
        .ok (if known_unit g.value_unit then g.value_unit else "dimensionless")
          (!known_unit g.value_unit) ts) ∧
    (∀ u w ts, _load_log_data_from_group known_unit g = .ok u w ts →
      known_unit g.value_unit = false → u = "dimensionless" ∧ w = true) ∧
    (∀ vshape tshape, g.value_shape = some vshape → vshape.prod ≠ 0 →
      g.time_shape = some tshape → g.time_unit_convertible = false →
      ∃ m, _load_log_data_from_group known_unit g = .bad m) := by
  refine ⟨?_, ?_, ?_⟩
  · intro u w ts h
    rcases load_log_cases known_unit g with ⟨m, _, h2⟩ | ⟨_, h2⟩ | ⟨ts2, h1, h2⟩
    · rw [h2] at h
      cases h
    · rw [h2] at h
      cases h
    · rw [h2] at h
      injection h with _ _ hts
      rw [← hts]
      exact h1
  · intro u w ts h hku
    rcases load_log_cases known_unit g with ⟨m, h1, _⟩ | ⟨h1, _⟩ | ⟨ts2, h1, _⟩
    · rw [h1] at h
      cases h
    · rw [h1] at h
      cases h
    · rw [h1] at h
      injection h with hu hw _
      constructor
      · rw [← hu, hku]
        rfl
      · rw [← hw, hku]
        rfl
  · intro vshape tshape hv hprod ht hconv
    refine
      ⟨"The units of time in an NXlog entry must be convertible to seconds", ?_⟩
    obtain ⟨vs, cs, vu, tsh, tc⟩ := g
    simp only at hv ht hconv
    subst hv
    subst ht
    subst hconv
    have hp : (vshape.prod == 0) = false := by simpa using hprod
    simp [_load_log_data_from_group, hp]

/-- Witness for C8 (amended) at concrete logs: an unknown value unit yields
dimensionless data with a warning while the load still succeeds, and an
unconvertible time unit yields a `BadSource`. -/
theorem C8_amended_unit_handling_witness :
    _load_log_data_from_group (fun s => s == "m")
      ⟨some [1], false, "furlongs", none, true⟩ =
      .ok "dimensionless" true false ∧
    ∃ m, _load_log_data_from_group (fun s => s == "m")
      ⟨some [1], false, "m", some [1], false⟩ = .bad m := by
  constructor
  · have h := (C8_amended_unit_handling (fun s => s == "m")
      ⟨some [1], false, "furlongs", none, true⟩).1 "furlongs" false false rfl
    simpa using h
  · exact (C8_amended_unit_handling (fun s => s == "m")
      ⟨some [1], false, "m", some [1], false⟩).2.2 [1] [1] rfl (by decide)
      rfl rfl

theorem filter_length_add (events : List Event) (p : Int) (dn2 : List Int)
    (hp : p ∉ dn2) :
    (events.filter (fun e => e.event_id == p)).length +
      (events.filter (fun e => decide (e.event_id ∈ dn2))).length =
      (events.filter (fun e => decide (e.event_id ∈ p :: dn2))).length := by
  induction events with
  | nil => rfl
  | cons e es ih =>
    by_cases hep : e.event_id = p
    · subst hep
      have h2 : (decide (e.event_id ∈ dn2)) = false := by simpa using hp
      simp only [List.filter_cons, List.decide_mem_cons] at ih ⊢
      simp [h2] at ih ⊢
      omega
    · have h1 : (e.event_id == p) = false := by simpa using hep
      by_cases hed : e.event_id ∈ dn2
      · have h2 : (decide (e.event_id ∈ dn2)) = true := by simpa using hed
        simp only [List.filter_cons, List.decide_mem_cons] at ih ⊢
        simp [h1, h2] at ih ⊢
        omega
      · have h2 : (decide (e.event_id ∈ dn2)) = false := by simpa using hed
        simp only [List.filter_cons, List.decide_mem_cons] at ih ⊢
        simp [h1, h2] at ih ⊢
        omega

theorem bucketTotal_binByPixel (events : List Event) (dn : List Int)
    (h : dn.Nodup) :
    bucketTotal (binByPixel events dn) =
      (events.filter (fun e => decide (e.event_id ∈ dn))).length := by
  induction dn with
  | nil => simp [bucketTotal, binByPixel]
  | cons p dn2 ih =>
    obtain ⟨hp, hnd⟩ := List.nodup_cons.mp h
    have hstep : bucketTotal (binByPixel events (p :: dn2)) =
        (events.filter (fun e => e.event_id == p)).length +
        bucketTotal (binByPixel events dn2) := by
      simp [bucketTotal, binByPixel]
    rw [hstep, ih hnd]
    exact filter_length_add events p dn2 hp

/-- C1, counterexample: with an explicit detector_number `[1]` and a single
event whose id `5` is outside the declared set, loading succeeds but the
bucket sizes sum to `0`, not to the total event count `1`: the conservation
law of the claim fails. -/
theorem C1_counterexample_event_lost :
    ∃ r, NXevent_data_by_pixel.getitem
      ⟨[⟨5, 10, 100⟩], some [1], none⟩ PixelSelect.ellipsis = .ok r ∧
      bucketTotal r ≠ ([⟨5, 10, 100⟩] : List Event).length :=
  ⟨[(1, [])], rfl, by decide⟩

/-- C1, amended: for an explicit, duplicate-free detector_number list the
bucket sizes sum to the number of events whose id lies in the declared
detector-number set; this equals the total event count exactly when every
event id is declared. -/
theorem C1_amended_conservation (events : List Event) (dn : List Int)
    (h : dn.Nodup) :
    ∃ r, NXevent_data_by_pixel.getitem ⟨events, some dn, none⟩
        PixelSelect.ellipsis = .ok r ∧
      bucketTotal r =
        (events.filter (fun e => decide (e.event_id ∈ dn))).length ∧
      ((∀ e ∈ events, e.event_id ∈ dn) → bucketTotal r = events.length) := by
  refine ⟨binByPixel events dn, rfl, bucketTotal_binByPixel events dn h, ?_⟩
  intro hall
  rw [bucketTotal_binByPixel events dn h]
  have hfull : events.filter (fun e => decide (e.event_id ∈ dn)) = events := by
    apply List.filter_eq_self.mpr
    intro e he
    simpa using hall e he
  rw [hfull]

/-- Witness for C1 (amended): all three event ids are declared, so the
bucket sizes sum to the total event count 3. -/
theorem C1_amended_conservation_witness :
    ∃ r, NXevent_data_by_pixel.getitem
      ⟨[⟨1, 10, 100⟩, ⟨2, 20, 100⟩, ⟨1, 30, 200⟩], some [1, 2], none⟩
      PixelSelect.ellipsis = .ok r ∧ bucketTotal r = 3 := by
  obtain ⟨r, h1, _, h3⟩ := C1_amended_conservation
    [⟨1, 10, 100⟩, ⟨2, 20, 100⟩, ⟨1, 30, 200⟩] [1, 2] (by decide)
  refine ⟨r, h1, ?_⟩
  rw [h3 (by decide)]
  rfl

/-- C2, counterexample: an event with id 7 outside the declared detector
numbers `[1, 2]` does not raise any error; the load returns buckets from
which the event is silently missing. -/
theorem C2_counterexample_no_error :
    NXevent_data_by_pixel.getitem ⟨[⟨7, 11, 100⟩], some [1, 2], none⟩
      PixelSelect.ellipsis = .ok [(1, []), (2, [])] ∧
    ∀ b ∈ [((1 : Int), ([] : List Event)), (2, [])],
      (⟨7, 11, 100⟩ : Event) ∉ b.2 :=
  ⟨rfl, by decide⟩

/-- C2, amended: loading binned event data with an explicit detector_number
never raises for events whose id is outside the (possibly sliced) declared
set; such events are silently dropped and appear in no returned bucket. -/
theorem C2_amended_silent_drop (events : List Event) (dn : List Int)
    (select : PixelSelect) (e : Event) (_he : e ∈ events)
    (hid : e.event_id ∉ applyPixelSelect select dn) :
    ∃ r, NXevent_data_by_pixel.getitem ⟨events, some dn, none⟩ select =
        .ok r ∧ ∀ b ∈ r, e ∉ b.2 := by
  refine ⟨binByPixel events (applyPixelSelect select dn), rfl, ?_⟩
  intro b hb hbe
  rcases List.mem_map.mp hb with ⟨p, hp, rfl⟩
  have hpe := (List.mem_filter.mp hbe).2
  have hep : e.event_id = p := by simpa using hpe
  exact hid (hep ▸ hp)

/-- Witness for C2 (amended): the event with id 9 is absent from every
bucket of the result for declared pixels `[3]`, and no error is raised. -/
theorem C2_amended_silent_drop_witness :
    ∃ r, NXevent_data_by_pixel.getitem ⟨[⟨9, 1, 2⟩], some [3], none⟩
      PixelSelect.ellipsis = .ok r ∧
      ∀ b ∈ r, (⟨9, 1, 2⟩ : Event) ∉ b.2 :=
  C2_amended_silent_drop [⟨9, 1, 2⟩] [3] PixelSelect.ellipsis ⟨9, 1, 2⟩
    (by decide) (by decide)

theorem foldl_min_spec (xs : List Int) (a : Int) :
    xs.foldl min a ∈ a :: xs ∧ xs.foldl min a ≤ a ∧
      ∀ x ∈ xs, xs.foldl min a ≤ x := by
  induction xs generalizing a with
  | nil =>
    refine ⟨List.mem_cons_self _ _, le_refl a, ?_⟩
    intro x hx
    cases hx
  | cons x xs ih =>
    obtain ⟨hmem, hle, hall⟩ := ih (min a x)
    simp only [List.foldl_cons]
    refine ⟨?_, ?_, ?_⟩
    · rcases List.mem_cons.mp hmem with h | h
      · rcases min_choice a x with hc | hc
        · exact List.mem_cons.mpr (Or.inl (h.trans hc))
        · exact List.mem_cons.mpr
            (Or.inr (List.mem_cons.mpr (Or.inl (h.trans hc))))
      · exact List.mem_cons.mpr (Or.inr (List.mem_cons.mpr (Or.inr h)))
    · exact hle.trans (min_le_left a x)
    · intro y hy
      rcases List.mem_cons.mp hy with rfl | hy2
      · exact hle.trans (min_le_right a y)
      · exact hall y hy2

theorem foldl_max_spec (xs : List Int) (a : Int) :
    xs.foldl max a ∈ a :: xs ∧ a ≤ xs.foldl max a ∧
      ∀ x ∈ xs, x ≤ xs.foldl max a := by
  induction xs generalizing a with
  | nil =>
    refine ⟨List.mem_cons_self _ _, le_refl a, ?_⟩
    intro x hx
    cases hx
  | cons x xs ih =>
    obtain ⟨hmem, hle, hall⟩ := ih (max a x)
    simp only [List.foldl_cons]
    refine ⟨?_, ?_, ?_⟩
    · rcases List.mem_cons.mp hmem with h | h
      · rcases max_choice a x with hc | hc
        · exact List.mem_cons.mpr (Or.inl (h.trans hc))
        · exact List.mem_cons.mpr
            (Or.inr (List.mem_cons.mpr (Or.inl (h.trans hc))))
      · exact List.mem_cons.mpr (Or.inr (List.mem_cons.mpr (Or.inr h)))
    · exact (le_max_left a x).trans hle
    · intro y hy
      rcases List.mem_cons.mp hy with rfl | hy2
      · exact (le_max_right a y).trans hle
      · exact hall y hy2

theorem mem_arangeInt (lo hi k : Int) (h : lo ≤ hi) :
    k ∈ arangeInt lo hi ↔ (lo ≤ k ∧ k ≤ hi) := by
  unfold arangeInt
  simp only [List.mem_map, List.mem_range]
  constructor
  · rintro ⟨i, hi2, rfl⟩
    omega
  · rintro ⟨h1, h2⟩
    exact ⟨(k - lo).toNat, by omega, by omega⟩

theorem nodup_arangeInt (lo hi : Int) : (arangeInt lo hi).Nodup := by
  unfold arangeInt
  refine List.Nodup.map ?_ (List.nodup_range _)
  intro a b hab
  simp only [] at hab
  omega

theorem binByPixel_keys (events : List Event) (pixels : List Int) :
    (binByPixel events pixels).map Prod.fst = pixels := by
  induction pixels with
  | nil => rfl
  | cons p ps ih => simp [binByPixel] at ih ⊢; exact ih

/-- C3: for an NXdetector with event data but no detector_number field, the
pixel identifier range used for binning is exactly the contiguous integer
range from the minimum to the maximum event_id observed in the event
stream, both extrema included. -/
theorem C3_inferred_pixel_range (events : List Event) (sel : PixelSelect)
    (hne : events ≠ [])
    (hsel : sel = PixelSelect.ellipsis ∨ sel = PixelSelect.etuple ∨
      sel = PixelSelect.fullSlice) :
    ∃ lo hi r,
      minList (events.map Event.event_id) = some lo ∧
      maxList (events.map Event.event_id) = some hi ∧
      lo ∈ events.map Event.event_id ∧
      hi ∈ events.map Event.event_id ∧
      (∀ x ∈ events.map Event.event_id, lo ≤ x ∧ x ≤ hi) ∧
      NXevent_data_by_pixel.getitem ⟨events, none, none⟩ sel = .ok r ∧
      (r.map Prod.fst).Nodup ∧
      (∀ k : Int, k ∈ r.map Prod.fst ↔ (lo ≤ k ∧ k ≤ hi)) := by
  cases events with
  | nil => exact absurd rfl hne
  | cons e es =>
    obtain ⟨hminmem, hminle, hminall⟩ :=
      foldl_min_spec (es.map Event.event_id) e.event_id
    obtain ⟨hmaxmem, hmaxle, hmaxall⟩ :=
      foldl_max_spec (es.map Event.event_id) e.event_id
    have hlohi : (es.map Event.event_id).foldl min e.event_id ≤
        (es.map Event.event_id).foldl max e.event_id :=
      hminle.trans hmaxle
    refine ⟨(es.map Event.event_id).foldl min e.event_id,
      (es.map Event.event_id).foldl max e.event_id,
      binByPixel (e :: es)
        (arangeInt ((es.map Event.event_id).foldl min e.event_id)
          ((es.map Event.event_id).foldl max e.event_id)),
      rfl, rfl, hminmem, hmaxmem, ?_, ?_, ?_, ?_⟩
    · intro x hx
      rw [List.map_cons] at hx
      rcases List.mem_cons.mp hx with rfl | hx2
      · exact ⟨hminle, hmaxle⟩
      · exact ⟨hminall x hx2, hmaxall x hx2⟩
    · rcases hsel with rfl | rfl | rfl <;> rfl
    · rw [binByPixel_keys]
      exact nodup_arangeInt _ _
    · intro k
      rw [binByPixel_keys]
      exact mem_arangeInt _ _ k hlohi

/-- Witness for C3 at the spec scenario ids `[1, 3, 2]`: the inferred pixel
keys are exactly the integers in `[1, 3]`. -/
theorem C3_inferred_pixel_range_witness :
    ∃ r, NXevent_data_by_pixel.getitem
      ⟨[⟨1, 456, 100⟩, ⟨3, 743, 100⟩, ⟨2, 347, 100⟩], none, none⟩
      PixelSelect.ellipsis = .ok r ∧
      ∀ k : Int, k ∈ r.map Prod.fst ↔ (1 ≤ k ∧ k ≤ 3) := by
  obtain ⟨lo, hi, r, hmin, hmax, _, _, _, hget, _, hiff⟩ :=
    C3_inferred_pixel_range [⟨1, 456, 100⟩, ⟨3, 743, 100⟩, ⟨2, 347, 100⟩]
      PixelSelect.ellipsis (by simp) (Or.inl rfl)
  have hlo : lo = 1 := Option.some.inj (hmin.symm.trans (by decide))
  have hhi : hi = 3 := Option.some.inj (hmax.symm.trans (by decide))
  subst hlo
  subst hhi
  exact ⟨r, hget, hiff⟩

theorem mem_insertSortedDedup (t y : Int) (l : List Int) :
    y ∈ insertSortedDedup t l ↔ y = t ∨ y ∈ l := by
  induction l with
  | nil => simp [insertSortedDedup]
  | cons x xs ih =>
    simp only [insertSortedDedup]
    by_cases h1 : t < x
    · rw [if_pos h1]
      simp only [List.mem_cons]
    · rw [if_neg h1]
      by_cases h2 : t = x
      · rw [if_pos h2]
        subst h2
        simp only [List.mem_cons]
        tauto
      · rw [if_neg h2]
        simp only [List.mem_cons, ih]
        tauto

theorem mem_foldr_insertSortedDedup (l acc : List Int) (y : Int) :
    y ∈ l.foldr insertSortedDedup acc ↔ y ∈ l ∨ y ∈ acc := by
  induction l with
  | nil => simp
  | cons x xs ih =>
    simp only [List.foldr_cons, mem_insertSortedDedup, ih, List.mem_cons]
    tauto

theorem mem_npUniqueConcat (l1 l2 : List Int) (y : Int) :
    y ∈ npUniqueConcat l1 l2 ↔ y ∈ l1 ∨ y ∈ l2 := by
  unfold npUniqueConcat
  rw [mem_foldr_insertSortedDedup]
  simp

theorem holdPrev_eq_lastNotAfter {M : Type} :
    ∀ (rest : List (Int × M)) (a : Int × M) (t : Int),
    timeSorted (a :: rest) → a.1 ≤ t →
    ∃ s, lastNotAfter (a :: rest) t = some s ∧ holdPrev a rest t = s.2 := by
  intro rest
  induction rest with
  | nil =>
    intro a t _ ht
    refine ⟨a, ?_, rfl⟩
    unfold lastNotAfter
    rw [List.filter_cons, if_pos (by simpa using ht)]
    rfl
  | cons b rest2 ih =>
    intro a t hs ht
    have hs2 : timeSorted (b :: rest2) := (List.pairwise_cons.mp hs).2
    by_cases hb : b.1 ≤ t
    · obtain ⟨s, hls, hh⟩ := ih b t hs2 hb
      refine ⟨s, ?_, ?_⟩
      · have hf1 : (a :: b :: rest2).filter (fun s => decide (s.1 ≤ t)) =
            a :: (b :: rest2).filter (fun s => decide (s.1 ≤ t)) := by
          rw [List.filter_cons, if_pos (by simpa using ht)]
        have hf2 : (b :: rest2).filter (fun s => decide (s.1 ≤ t)) =
            b :: rest2.filter (fun s => decide (s.1 ≤ t)) := by
          rw [List.filter_cons, if_pos (by simpa using hb)]
        unfold lastNotAfter at hls ⊢
        rw [hf1, hf2, List.getLast?_cons_cons, ← hf2]
        exact hls
      · simp only [holdPrev, if_pos hb]
        exact hh
    · refine ⟨a, ?_, ?_⟩
      · have hrest : rest2.filter (fun s => decide (s.1 ≤ t)) = [] := by
          refine List.filter_eq_nil_iff.mpr ?_
          intro x hx
          have hbx : b.1 ≤ x.1 := (List.pairwise_cons.mp hs2).1 x hx
          simp only [decide_eq_true_eq]
          intro hle
          exact hb (hbx.trans hle)
        unfold lastNotAfter
        rw [List.filter_cons, if_pos (by simpa using ht),
          List.filter_cons, if_neg (by simpa using hb), hrest]
        rfl
      · simp only [holdPrev, if_neg hb]

theorem filter_map_pair {M : Type} (xnew : List Int) (f : Int → M) (c : Int) :
    ((xnew.map (fun x => (x, f x))).filter (fun p => decide (c ≤ p.1))) =
      (xnew.filter (fun x => decide (c ≤ x))).map (fun x => (x, f x)) := by
  induction xnew with
  | nil => rfl
  | cons x xs ih =>
    simp only [List.map_cons, List.filter_cons]
    by_cases h : c ≤ x
    · rw [if_pos (by simpa using h), if_pos (by simpa using h),
        List.map_cons, ih]
    · rw [if_neg (by simpa using h), if_neg (by simpa using h), ih]

theorem mulSeries_map_map {M : Type} [Mul M] (xnew : List Int)
    (f g : Int → M) :
    mulSeries (xnew.map (fun x => (x, f x))) (xnew.map (fun x => (x, g x))) =
      xnew.map (fun x => (x, f x * g x)) := by
  induction xnew with
  | nil => rfl
  | cons x xs ih =>
    simp only [List.map_cons, mulSeries, List.zipWith_cons_cons] at ih ⊢
    rw [ih]

theorem map_mul_one {M : Type} [Monoid M] (l : List (Int × M)) :
    l.map (fun p => (p.1, p.2 * 1)) = l := by
  induction l with
  | nil => rfl
  | cons p ps ih => simp [ih]

theorem get_full_two_logged {M : Type} [Monoid M] (t1 t2 : List (Int × M))
    (a b : Int × M) (r1 r2 : List (Int × M))
    (h1 : t1 = a :: r1) (h2 : t2 = b :: r2) :
    get_full_transformation_matrix 1
      [NXtransform.logged t1, NXtransform.logged t2] =
      .logged (((npUniqueConcat (t1.map Prod.fst) (t2.map Prod.fst)).map
        (fun x => (x, holdPrev b r2 x * holdPrev a r1 x))).filter
        (fun p => decide (max a.1 b.1 ≤ p.1))) := by
  subst h1
  subst h2
  unfold get_full_transformation_matrix
  simp only [List.foldl_cons, List.foldl_nil, mulTransform, map_mul_one,
    List.filterMap_cons, List.filterMap_nil, maxList, _interpolate_transform,
    mulSeries_map_map]

/-- C4: composing a depends_on chain of two time-logged transforms with
different timestamp sets yields a result defined on the union of the two
timestamp sets restricted to times at or after the latest of the two logs'
first timestamps, with each value obtained by hold-last-value (nearest
preceding sample) interpolation of both logs; no value is produced before
any contributing log's first sample. -/
theorem C4_two_logged_union_holdlast {M : Type} [Monoid M]
    (t1 t2 : List (Int × M)) (a b : Int × M) (r1 r2 : List (Int × M))
    (h1 : t1 = a :: r1) (h2 : t2 = b :: r2)
    (hs1 : timeSorted t1) (hs2 : timeSorted t2) :
    ∃ rs, get_full_transformation_matrix 1
        [NXtransform.logged t1, NXtransform.logged t2] = .logged rs ∧
      (∀ x : Int, x ∈ rs.map Prod.fst ↔
        ((x ∈ t1.map Prod.fst ∨ x ∈ t2.map Prod.fst) ∧ max a.1 b.1 ≤ x)) ∧
      (∀ p ∈ rs, max a.1 b.1 ≤ p.1) ∧
      (∀ p ∈ rs, ∃ s1 s2, lastNotAfter t1 p.1 = some s1 ∧
        lastNotAfter t2 p.1 = some s2 ∧ p.2 = s2.2 * s1.2) := by
  have heq := get_full_two_logged t1 t2 a b r1 r2 h1 h2
  rw [filter_map_pair] at heq
  refine ⟨_, heq, ?_, ?_, ?_⟩
  · intro x
    rw [List.map_map]
    constructor
    · intro hx
      rcases List.mem_map.mp hx with ⟨y, hy, hxy⟩
      have hyx : y = x := hxy
      subst hyx
      have hmemf := List.mem_filter.mp hy
      exact ⟨(mem_npUniqueConcat _ _ _).mp hmemf.1, by simpa using hmemf.2⟩
    · rintro ⟨hmem, hle⟩
      refine List.mem_map.mpr ⟨x, ?_, rfl⟩
      exact List.mem_filter.mpr
        ⟨(mem_npUniqueConcat _ _ _).mpr hmem, by simpa using hle⟩
  · intro p hp
    rcases List.mem_map.mp hp with ⟨y, hy, rfl⟩
    simpa using (List.mem_filter.mp hy).2
  · intro p hp
    rcases List.mem_map.mp hp with ⟨y, hy, rfl⟩
    have hle : max a.1 b.1 ≤ y := by simpa using (List.mem_filter.mp hy).2
    have ha : a.1 ≤ y := le_trans (le_max_left _ _) hle
    have hb : b.1 ≤ y := le_trans (le_max_right _ _) hle
    obtain ⟨s1, hl1, hh1⟩ := holdPrev_eq_lastNotAfter r1 a y (h1 ▸ hs1) ha
    obtain ⟨s2, hl2, hh2⟩ := holdPrev_eq_lastNotAfter r2 b y (h2 ▸ hs2) hb
    refine ⟨s1, s2, ?_, ?_, ?_⟩
    · rw [h1]
      exact hl1
    · rw [h2]
      exact hl2
    · show holdPrev b r2 y * holdPrev a r1 y = s2.2 * s1.2
      rw [hh1, hh2]

/-- Witness for C4 with two integer-valued logs starting at times 0 and 5:
the composed result carries no timestamp before 5, the later start. -/
theorem C4_two_logged_union_holdlast_witness :
    ∃ rs, get_full_transformation_matrix (1 : ℤ)
        [NXtransform.logged [((0 : Int), (2 : ℤ)), ((10 : Int), (3 : ℤ))],
          NXtransform.logged [((5 : Int), (5 : ℤ))]] = .logged rs ∧
      ∀ p ∈ rs, (5 : Int) ≤ p.1 := by
  obtain ⟨rs, hg, _, hcl, _⟩ := C4_two_logged_union_holdlast
    [((0 : Int), (2 : ℤ)), ((10 : Int), (3 : ℤ))] [((5 : Int), (5 : ℤ))]
    ((0 : Int), (2 : ℤ)) ((5 : Int), (5 : ℤ)) [((10 : Int), (3 : ℤ))] []
    rfl rfl (by unfold timeSorted; decide) (by unfold timeSorted; decide)
  refine ⟨rs, hg, ?_⟩
  intro p hp
  have h := hcl p hp
  have hmax : max ((0 : Int), (2 : ℤ)).1 ((5 : Int), (5 : ℤ)).1 = 5 := by
    decide
  rw [hmax] at h
  exact h
